import Mathlib

set_option maxRecDepth 100000

/-!
Shallow embedding of the active `MarkdownBuffer` class of
`src/production-ai-app/backend/python/ai/src/scripts/markdown_buffer.py`.

Text is modelled as `List Char`.  Python whitespace (`str.lstrip`/`str.strip`
and the regex class `\s` on str patterns, which use the same set) is modelled
exactly, by its full closed list of code points; the regex class `\d` (all
Unicode decimal digits) is modelled on the ASCII range, and the one theorem
whose truth depends on how non-ASCII digits classify is stated for ASCII
lines.
Emitted HTML fragments are modelled by the inductive `Frag`, whose `renderFrag`
function produces exactly the strings the Python code builds, so that both
tag-counting properties and exact-concatenation properties can be stated.
Fallible spots of the Python code (a handler regex that fails to re-match and
then dereferences `None`, `None + 1`, indexing an empty stack) are modelled by
`Option`, with `none` standing for the raised exception.
-/

namespace MarkdownBuffer

abbrev Chars := List Char

/-- Convert a string literal to the character-list representation. -/
def chars (s : String) : Chars := s.toList

/-- A single-quote character, used by the renderer inside `<ol start='N'>`
and `<li value='N'>`. -/
def sq : Char := Char.ofNat 39

/-- Whitespace as recognised by Python's `str.lstrip`/`str.strip` and by the
regex class `\s` on str patterns — both use the same set (CPython's Unicode
whitespace predicate): U+0009–U+000D, U+001C–U+001F, U+0020, U+0085, U+00A0,
U+1680, U+2000–U+200A, U+2028, U+2029, U+202F, U+205F, U+3000. -/
def isWs (c : Char) : Bool :=
  let n := c.toNat
  (0x09 ≤ n && n ≤ 0x0d) || (0x1c ≤ n && n ≤ 0x1f) || n == 0x20 ||
    n == 0x85 || n == 0xa0 || n == 0x1680 ||
    (0x2000 ≤ n && n ≤ 0x200a) || n == 0x2028 || n == 0x2029 ||
    n == 0x202f || n == 0x205f || n == 0x3000

/-- Decimal digit as matched by the regex class `\d`, modelled on the ASCII
range.  Python's `\d` also matches every non-ASCII Unicode decimal digit
(category Nd); the embedding does not model those, so the crash
characterisation of C2 is stated for ASCII lines, where `\d` coincides with
`[0-9]`. -/
def isDigitCh (c : Char) : Bool := '0' ≤ c && c ≤ '9'

/-- `line.lstrip()`. -/
def lstrip (l : Chars) : Chars := l.dropWhile isWs

/-- `line.rstrip()`. -/
def rstrip (l : Chars) : Chars := (l.reverse.dropWhile isWs).reverse

/-- Value of a run of ASCII digits, as computed by Python's `int`. -/
def digitsToNat (l : Chars) : Nat :=
  l.foldl (fun a c => a * 10 + (c.toNat - 48)) 0

/-- Decimal digits of a number, as produced by Python string formatting. -/
def natChars (n : Nat) : Chars := Nat.toDigits 10 n

/-- `buffer.split('\n')`, returned as (all complete segments, trailing
segment): Python's list is `fst ++ [snd]`. -/
def splitNl : Chars → List Chars × Chars
  | [] => ([], [])
  | c :: rest =>
    let p := splitNl rest
    if c = '\n' then ([] :: p.1, p.2)
    else
      match p.1 with
      | [] => ([], c :: p.2)
      | l :: ls => ((c :: l) :: ls, p.2)

/-- The leading `#` run of a (stripped) line. -/
def hashRun (s : Chars) : Chars := s.takeWhile (· == '#')

/-- What follows the leading `#` run. -/
def afterHash (s : Chars) : Chars := s.dropWhile (· == '#')

/-- The leading digit run of a (stripped) line. -/
def digitRun (s : Chars) : Chars := s.takeWhile isDigitCh

/-- What follows the leading digit run. -/
def afterDigits (s : Chars) : Chars := s.dropWhile isDigitCh

/-- `re.match(r'^#{1,6}\s', s)` succeeds: the leading `#` run has length
1–6 and is followed by a whitespace character.  (With a run longer than 6 the
regex fails: every candidate split puts a `#` where `\s` must match.) -/
def classifyHeader (s : Chars) : Bool :=
  let n := (hashRun s).length
  1 ≤ n && n ≤ 6 &&
    match afterHash s with
    | c :: _ => isWs c
    | [] => false

/-- `re.match(r'^\d+\.\s', s)` succeeds: a nonempty digit run, a literal
dot, then a whitespace character.  (Backtracking to a shorter digit run
cannot help: the dot would have to match a digit.) -/
def classifyOrdered (s : Chars) : Bool :=
  (digitRun s).length ≥ 1 &&
    match afterDigits s with
    | '.' :: c :: _ => isWs c
    | _ => false

/-- `re.match(r'^(#{1,6})\s(.+)$', s)`: the header handler's re-parse.
Returns (level, text after the single consumed whitespace char), or `none`
when the regex does not match — in which case the Python handler raises
`AttributeError` on `match.group(1)`.  `(.+)` requires a nonempty remainder
containing no newline (lines are newline-free by construction). -/
def headerReparse (s : Chars) : Option (Nat × Chars) :=
  let n := (hashRun s).length
  if 1 ≤ n ∧ n ≤ 6 then
    match afterHash s with
    | c :: rest =>
      if isWs c = true ∧ rest ≠ [] ∧ '\n' ∉ rest then some (n, rest) else none
    | [] => none
  else none

/-- `re.match(r'^(\d+)\.\s(.+)$', s)`: the ordered-item handler's re-parse.
Returns (item number, text after the dot and the single consumed whitespace
char), or `none` when the regex does not match — the Python handler then
raises `AttributeError` on `match.group(1)`. -/
def ordReparse (s : Chars) : Option (Nat × Chars) :=
  if (digitRun s).length ≥ 1 then
    match afterDigits s with
    | '.' :: c :: rest =>
      if isWs c = true ∧ rest ≠ [] ∧ '\n' ∉ rest then
        some (digitsToNat (digitRun s), rest)
      else none
    | _ => none
  else none

/-- List kind: `'ol'` or `'ul'` in the Python tuples. -/
inductive LKind where
  | ol : LKind
  | ul : LKind
deriving DecidableEq, Repr

/-- One entry of `list_stack`: the Python mutable triple
`[list_type, indent, last_number]` (where `last_number` is `None` for
unordered frames, and an int for ordered frames at every reachable state). -/
structure Frame where
  kind : LKind
  indent : Nat
  last : Option Nat
deriving DecidableEq, Repr

/-- The renderer's mutable state: `buffer`, `current_line`, `list_stack`
(top of stack at the HEAD of the list, i.e. Python's `list_stack[-1]`),
`in_list_item`. -/
structure St where
  buffer : Chars
  cur : Chars
  stack : List Frame
  inList : Bool
deriving DecidableEq, Repr

/-- The freshly constructed renderer. -/
def init : St := ⟨[], [], [], false⟩

/-- One emitted HTML fragment, tagged by which `f"..."` expression of the
source produced it; `renderFrag` recovers the exact emitted string. -/
inductive Frag where
  | openUl : Frag
  | openOl : Nat → Frag
  | li : Frag
  | liVal : Nat → Frag
  | closeLi : Frag
  | closeTag : LKind → Frag
  | header : Nat → Chars → Frag
  | br : Frag
  | text : Chars → Frag
deriving DecidableEq, Repr

/-- The exact string the Python code appends for each fragment. -/
def renderFrag : Frag → Chars
  | .openUl => chars "<ul>"
  | .openOl n => chars "<ol start=" ++ [sq] ++ natChars n ++ [sq, '>']
  | .li => chars "<li>"
  | .liVal n => chars "<li value=" ++ [sq] ++ natChars n ++ [sq, '>']
  | .closeLi => chars "</li>"
  | .closeTag .ul => chars "</ul>"
  | .closeTag .ol => chars "</ol>"
  | .header lvl content =>
      chars "<h" ++ natChars lvl ++ ['>'] ++ content ++ chars "</h" ++ natChars lvl ++ ['>']
  | .br => chars "<br>"
  | .text content => content

/-- Concatenation, in order, of a sequence of emitted fragments. -/
def renderOut (fs : List Frag) : Chars := fs.flatMap renderFrag

/-- Find the lazy close of `re.sub(r'\*\*(.*?)\*\*', ...)`: the earliest
`**` in the list, with the skipped prefix (the group, which `.` forbids to
contain a newline) and the remainder after the closing `**`. -/
def findStrongClose : Chars → Option (Chars × Chars)
  | [] => none
  | c :: rest =>
    if c = '*' then
      match rest with
      | c2 :: rest2 =>
        if c2 = '*' then some ([], rest2)
        else (findStrongClose rest).map (fun p => (c :: p.1, p.2))
      | [] => none
    else if c = '\n' then none
    else (findStrongClose rest).map (fun p => (c :: p.1, p.2))

/-- Find the lazy close of `re.sub(r'\*(.*?)\*', ...)`: the earliest `*`. -/
def findEmClose : Chars → Option (Chars × Chars)
  | [] => none
  | c :: rest =>
    if c = '*' then some ([], rest)
    else if c = '\n' then none
    else (findEmClose rest).map (fun p => (c :: p.1, p.2))

/-- `re.sub(r'\*\*(.*?)\*\*', r'<strong>\1</strong>', text)`: global
left-to-right substitution: at a `**` with a lazy close, replace and continue
after the close; at a `**` with no close the match at this position fails and
scanning advances one character.  The fuel argument bounds recursion depth;
it is instantiated with the list length, which suffices since every step
consumes at least one character. -/
def subStrong : Nat → Chars → Chars
  | 0, l => l
  | _ + 1, [] => []
  | fuel + 1, c :: rest =>
    if c = '*' then
      match rest with
      | c2 :: rest2 =>
        if c2 = '*' then
          match findStrongClose rest2 with
          | some p => chars "<strong>" ++ p.1 ++ chars "</strong>" ++ subStrong fuel p.2
          | none => '*' :: subStrong fuel ('*' :: rest2)
        else c :: subStrong fuel rest
      | [] => c :: subStrong fuel rest
    else c :: subStrong fuel rest

/-- `re.sub(r'\*(.*?)\*', r'<em>\1</em>', text)`. -/
def subEm : Nat → Chars → Chars
  | 0, l => l
  | _ + 1, [] => []
  | fuel + 1, c :: rest =>
    if c = '*' then
      match findEmClose rest with
      | some p => chars "<em>" ++ p.1 ++ chars "</em>" ++ subEm fuel p.2
      | none => '*' :: subEm fuel rest
    else c :: subEm fuel rest

/-- `_format_inline`: bold substitution first, then italic on its result. -/
def formatInline (t : Chars) : Chars :=
  let b := subStrong t.length t
  subEm b.length b

/-- The `while self.list_stack and self.list_stack[-1][1] > indent` pop loop
shared by `_handle_list_item` and `_close_lists_if_needed`: returns the
remaining stack and the fragments `_close_list` produced for each pop. -/
def popGT : List Frame → Nat → List Frame × List Frag
  | [], _ => ([], [])
  | f :: rest, indent =>
    if f.indent > indent then
      let p := popGT rest indent
      (p.1, Frag.closeLi :: Frag.closeTag f.kind :: p.2)
    else (f :: rest, [])

/-- `_close_lists`: pop every frame, emitting `</li>` then the matching
close tag for each (top first). -/
def closeAll (st : List Frame) : List Frag :=
  st.flatMap (fun f => [Frag.closeLi, Frag.closeTag f.kind])

/-- `_handle_list_item(list_type, number, content, indent)`, acting on
`list_stack` (the only state it reads; it also sets `in_list_item = True`,
which the caller records).  `number` is only read in the `'ol'` branches,
mirroring the source where the `'ul'` call site passes `None`.  The `none`
results model the two Python crashes that are unreachable from the public
API: `last_number + 1` with `last_number = None` (`TypeError`) and
`list_stack[-1]` on an empty stack (`IndexError`). -/
def handleListItem (stack : List Frame) (k : LKind) (number : Nat)
    (content : Chars) (indent : Nat) : Option (List Frame × List Frag) :=
  let p := popGT stack indent
  let pushNeeded : Bool :=
    match p.1 with
    | [] => true
    | f :: _ => decide (f.indent < indent) || decide (f.kind ≠ k)
  let stack2 : List Frame :=
    if pushNeeded then
      ⟨k, indent, if k = .ol then some number else none⟩ :: p.1
    else p.1
  let r2 : List Frag :=
    if pushNeeded then
      p.2 ++ [match k with | .ol => Frag.openOl number | .ul => Frag.openUl]
    else p.2
  match k with
  | .ol =>
    match stack2 with
    | f :: rest =>
      match f.last with
      | some lastNum =>
        let liF := if number ≠ lastNum + 1 then Frag.liVal number else Frag.li
        some (⟨f.kind, f.indent, some number⟩ :: rest, r2 ++ [liF, Frag.text content])
      | none => none
    | [] => none
  | .ul =>
    some (stack2, r2 ++ [Frag.li, Frag.text content])

/-- `_process_line`, acting on the only state the handlers read or write:
(`list_stack`, `in_list_item`).  The line is classified (header, ordered
item, unordered item, blank, plain — in this order) and the matching handler
runs.  Header: `_close_lists()` empties the stack but its returned closing
fragments are DISCARDED by the source; re-parse failure raises (`none`).
Blank: clear the flag, emit `<br>`.  Plain: a continuation of an open `<li>`
(leading space, flag cleared), or else `_close_lists_if_needed` pops frames
— its returned closing fragments are likewise DISCARDED by the source. -/
def processLineCore (stack : List Frame) (inList : Bool) (line : Chars) :
    Option (List Frame × Bool × List Frag) :=
  let stripped := lstrip line
  let indent := line.length - stripped.length
  if classifyHeader stripped then
    match headerReparse stripped with
    | some (lvl, content) => some ([], inList, [Frag.header lvl (formatInline content)])
    | none => none
  else if classifyOrdered stripped then
    match ordReparse stripped with
    | some (n, content) =>
      (handleListItem stack .ol n (formatInline content) indent).map
        (fun r => (r.1, true, r.2))
    | none => none
  else if (match stripped with | '-' :: ' ' :: _ => true | _ => false) then
    (handleListItem stack .ul 0 (formatInline (stripped.drop 2)) indent).map
      (fun r => (r.1, true, r.2))
  else if (rstrip (lstrip stripped)).isEmpty then
    some (stack, false, [Frag.br])
  else if inList then
    some (stack, false, [Frag.text (' ' :: formatInline stripped)])
  else
    some ((popGT stack indent).1, inList, [Frag.text (formatInline stripped)])

/-- `_process_line` on the full renderer state: `buffer` and `current_line`
are read and written only by `_process_buffer`/`flush`, never by the line
handlers. -/
def processLine (s : St) (line : Chars) : Option (St × List Frag) :=
  (processLineCore s.stack s.inList line).map
    (fun r => ({ s with stack := r.1, inList := r.2.1 }, r.2.2))

/-- The `for line in new_lines[:-1]` loop of `_process_buffer`: each complete
segment is appended to `current_line`, dispatched, and `current_line` is
cleared. -/
def procComplete (s : St) : List Chars → Option (St × List Frag)
  | [] => some (s, [])
  | l :: ls =>
    match processLine s (s.cur ++ l) with
    | none => none
    | some r1 =>
      match procComplete { r1.1 with cur := [] } ls with
      | none => none
      | some r2 => some (r2.1, r1.2 ++ r2.2)

/-- `add_chunk`: append to the buffer, split on newlines, dispatch every
complete line, keep the trailing segment as `current_line`, and
force-dispatch it when it exceeds 80 characters. -/
def addChunk (s : St) (chunk : Chars) : Option (St × List Frag) :=
  let p := splitNl (s.buffer ++ chunk)
  match procComplete { s with buffer := [] } p.1 with
  | none => none
  | some r1 =>
    let s2 : St := { r1.1 with cur := r1.1.cur ++ p.2 }
    if s2.cur.length > 80 then
      match processLine s2 s2.cur with
      | none => none
      | some r2 => some ({ r2.1 with cur := [] }, r1.2 ++ r2.2)
    else
      some (s2, r1.2)

/-- `flush`: dispatch the residual `current_line` (if nonempty), then close
every remaining frame; `current_line` is cleared. -/
def flushB (s : St) : Option (St × List Frag) :=
  if s.cur.isEmpty then
    some ({ s with stack := [], cur := [] }, closeAll s.stack)
  else
    match processLine s s.cur with
    | none => none
    | some r1 => some ({ r1.1 with stack := [], cur := [] }, r1.2 ++ closeAll r1.1.stack)

/-- Feed a sequence of chunks through `add_chunk`, collecting all emitted
fragments in order. -/
def feedChunks (s : St) : List Chars → Option (St × List Frag)
  | [] => some (s, [])
  | c :: cs =>
    match addChunk s c with
    | none => none
    | some r1 =>
      match feedChunks r1.1 cs with
      | none => none
      | some r2 => some (r2.1, r1.2 ++ r2.2)

/-- A full run: all `add_chunk` calls from the fresh renderer, then
`flush()`; `none` models a raised exception. -/
def runChunks (cs : List Chars) : Option (List Frag) :=
  match feedChunks init cs with
  | none => none
  | some r1 =>
    match flushB r1.1 with
    | none => none
    | some r2 => some (r1.2 ++ r2.2)

/-! Auxiliary definitions used to state the claims. -/

/-- Is the fragment a list-opening tag (`<ul>` or `<ol start='N'>`)? -/
def isOpenTagB : Frag → Bool
  | .openUl => true
  | .openOl _ => true
  | _ => false

/-- Is the fragment a list-closing tag (`</ul>` or `</ol>`)? -/
def isCloseTagB : Frag → Bool
  | .closeTag _ => true
  | _ => false

/-- Is the fragment an item-opening tag (`<li>` or `<li value='N'>`)? -/
def isLiB : Frag → Bool
  | .li => true
  | .liVal _ => true
  | _ => false

/-- Is the fragment `</li>`? -/
def isCloseLiB : Frag → Bool
  | .closeLi => true
  | _ => false

/-- The (stripped) lines on which a handler's re-parse regex fails although
the classifier regex matched: a 1–6 `#` run followed by exactly one
whitespace character, or a digit run followed by `.` and exactly one
whitespace character. -/
def isDegenerate (s : Chars) : Bool :=
  (classifyHeader s && (afterHash s).length == 1) ||
  (classifyOrdered s && (afterDigits s).length == 2)

/-- Every ordered frame on the stack carries a number (Python: the third
slot of an `'ol'` triple is an int, never `None`).  Holds in every reachable
state; the fresh stack `[]` satisfies it trivially. -/
def olNumbered (st : List Frame) : Bool :=
  st.all (fun f => f.kind == .ul || f.last.isSome)

/-- The spec's claimed stack invariant: `indent` strictly increasing from
bottom (list end) to top (list head). -/
def strictIncB : List Frame → Bool
  | f :: g :: rest => decide (g.indent < f.indent) && strictIncB (g :: rest)
  | _ => true

/-- The spec's claimed uniqueness invariant: no two frames on the stack
share the same (kind, indent) pair. -/
def noDupKindIndentB : List Frame → Bool
  | [] => true
  | f :: rest =>
    rest.all (fun g => !(f.kind == g.kind && f.indent == g.indent)) &&
      noDupKindIndentB rest

/-- The invariant the code actually maintains: indents weakly increase from
bottom to top, and two ADJACENT frames with equal indent differ in kind. -/
def stackShapeB : List Frame → Bool
  | f :: g :: rest =>
    (decide (g.indent < f.indent) || (g.indent == f.indent && g.kind != f.kind)) &&
      stackShapeB (g :: rest)
  | _ => true

/-- A state reachable from the fresh renderer by some sequence of
(successful) `add_chunk` calls. -/
def ReachableSt (s : St) : Prop :=
  ∃ cs r, feedChunks init cs = some (s, r)

/-- The value `current_line` holds right before the 80-character force check
of `_process_buffer`, when `add_chunk` receives `a` in state `s`. -/
def pendingAfter (s : St) (a : Chars) : Chars :=
  let p := splitNl (s.buffer ++ a)
  (if p.1.isEmpty then s.cur else []) ++ p.2

/-- The 80-character force-dispatch does not fire when `a` is added in state
`s`: the trailing unterminated line stays at most 80 characters long. -/
def noForce (s : St) (a : Chars) : Prop := (pendingAfter s a).length ≤ 80

/-- A partition into chunks is cut cleanly when no internal chunk boundary
leaves a pending unterminated line longer than 80 characters (so the force
dispatch never splits a line at a boundary; the last chunk is
unconstrained). -/
def goodCuts : St → List Chars → Prop
  | _, [] => True
  | _, [_] => True
  | s, c :: cs => noForce s c ∧ ∀ r, addChunk s c = some r → goodCuts r.1 cs

/-- One line processed at the (`list_stack`, `in_list_item`) level. -/
def runLine (q : List Frame × Bool) (line : Chars) :
    Option ((List Frame × Bool) × List Frag) :=
  (processLineCore q.1 q.2 line).map (fun r => ((r.1, r.2.1), r.2.2))

/-- A sequence of lines processed at the (`list_stack`, `in_list_item`)
level, fragments concatenated in order. -/
def runLines (q : List Frame × Bool) : List Chars → Option ((List Frame × Bool) × List Frag)
  | [] => some (q, [])
  | l :: ls =>
    match runLine q l with
    | none => none
    | some r1 =>
      match runLines r1.1 ls with
      | none => none
      | some r2 => some (r2.1, r1.2 ++ r2.2)

/-- The complete lines `_process_buffer` dispatches: the pending
`current_line` is glued onto the first complete segment. -/
def linesOf (cur : Chars) : List Chars → List Chars
  | [] => []
  | l :: ls => (cur ++ l) :: ls

/-- 79 repetitions of `a`: padding that pushes a list-item line over the
80-character force threshold. -/
def aRun : Chars := List.replicate 79 'a'

/-- First half of the force-split counterexample line (81 characters, no
newline, no emphasis marker). -/
def c6A : Chars := '-' :: ' ' :: aRun

/-- Second half of the force-split counterexample line. -/
def c6B : Chars := ['b', '\n']

/-! ## Counterexamples and concrete evaluations -/

/-- C1 (counterexample): the claimed tag balance fails: feeding
`"- a\n- b\n"` and flushing emits two `<li>` fragments but a single `</li>`
(a frame close emits one `</li>` however many items the frame held). -/
theorem c1_counterexample :
    ¬ (∀ cs out, runChunks cs = some out →
        (out.countP isOpenTagB = out.countP isCloseTagB ∧
         out.countP isLiB = out.countP isCloseLiB)) := by
  intro h
  have h2 := (h [chars "- a\n- b\n"]
      [.openUl, .li, .text ['a'], .li, .text ['b'], .closeLi, .closeTag .ul]
      (by rfl)).2
  exact absurd h2 (by decide)

/-- C2 (counterexample): `add_chunk` is not total: on the chunk `"# \n"`
the line is classified as a header, but the handler's re-parse regex
`^(#{1,6})\s(.+)$` fails (no character after the whitespace) and
`match.group(1)` raises `AttributeError`, modelled by `none`. -/
theorem c2_counterexample : addChunk init (chars "# \n") = none := by rfl

/-- C3 (evaluation at the failing input): a header line processed while a
list is open emits only the `<hN>` fragment: the `</li>`/`</ul>` fragments
built by `_close_lists()` are discarded because `_process_header` ignores
that call's return value, so the run's output holds an unmatched `<ul>`. -/
theorem c3_header_discards_closing_tags :
    runChunks [chars "- a\n# H\n"] =
      some [.openUl, .li, .text ['a'], .header 1 ['H']] := by rfl

/-- C4 (counterexample): Scenario B's claimed concatenation is wrong: the
code emits no `</li>` between consecutive items of one list. -/
theorem c4_counterexample :
    (runChunks [chars "- a\n- b\n"]).map renderOut ≠
      some (chars "<ul><li>a</li><li>b</li></ul>") := by decide

/-- C4 (amended): feeding `"- a\n- b\n"` then flushing concatenates to
`<ul><li>a<li>b</li></ul>`: the first item's `</li>` is absent; only the
final frame close emits a `</li>`. -/
theorem c4_amended_concatenation :
    (runChunks [chars "- a\n- b\n"]).map renderOut =
      some (chars "<ul><li>a<li>b</li></ul>") := by rfl

/-- C5 (counterexample): Scenario C's claimed concatenation is wrong: the
first item of an ordered list is emitted as `<li value='1'>`, not `<li>`
(the freshly pushed frame records the item's own number, so the
`number != last_number + 1` test is true for the first item), and no
`</li>` separates the two items. -/
theorem c5_counterexample :
    (runChunks [chars "1. a\n3. b\n"]).map renderOut ≠
      some (chars "<ol start=" ++ [sq, '1', sq, '>'] ++
            chars "<li>a</li><li value=" ++ [sq, '3', sq, '>'] ++
            chars "b</li></ol>") := by decide

/-- C5 (amended): feeding `"1. a\n3. b\n"` then flushing concatenates to
`<ol start='1'><li value='1'>a<li value='3'>b</li></ol>`. -/
theorem c5_amended_concatenation :
    (runChunks [chars "1. a\n3. b\n"]).map renderOut =
      some (chars "<ol start=" ++ [sq, '1', sq, '>'] ++
            chars "<li value=" ++ [sq, '1', sq, '>'] ++ chars "a" ++
            chars "<li value=" ++ [sq, '3', sq, '>'] ++
            chars "b</li></ol>") := by rfl

/-- C6 (counterexample): chunk-boundary invariance fails with no emphasis
marker involved: splitting the 82-character line `- aaa…ab\n` after its
first 81 characters makes the force dispatch process the two halves as
separate lines, inserting a continuation space absent from the single-chunk
run. -/
theorem c6_counterexample :
    (runChunks [c6A ++ c6B]).map renderOut ≠
      (runChunks [c6A, c6B]).map renderOut := by decide

/-- C7 (counterexample): after `"- a\n1. b\n"` the reachable stack holds an
ordered frame above an unordered frame, both at indent 0, so indents are not
strictly increasing. -/
theorem c7_counterexample :
    ¬ (∀ s : St, ReachableSt s →
        (strictIncB s.stack = true ∧ noDupKindIndentB s.stack = true)) := by
  intro h
  have h2 := h ⟨[], [], [⟨.ol, 0, some 1⟩, ⟨.ul, 0, none⟩], true⟩
    ⟨[chars "- a\n1. b\n"],
     [.openUl, .li, .text ['a'], .openOl 1, .liVal 1, .text ['b']], by rfl⟩
  exact absurd h2.1 (by decide)

/-- C8 (counterexample): an unpaired `**` prefix is not left literal: the
italic substitution `\*(.*?)\*` consumes the two asterisks as an empty
emphasis, producing `<em></em>x`. -/
theorem c8_counterexample :
    formatInline (chars "**x") ≠ chars "**x" := by decide

/-! ## The line handlers read and write only `list_stack` / `in_list_item` -/

theorem processLine_cur_buffer (s : St) (line : Chars) (r : St × List Frag)
    (h : processLine s line = some r) :
    r.1.cur = s.cur ∧ r.1.buffer = s.buffer := by
  unfold processLine at h
  cases hc : processLineCore s.stack s.inList line with
  | none => rw [hc] at h; simp at h
  | some v =>
    rw [hc] at h
    simp only [Option.map_some', Option.some.injEq] at h
    subst h
    exact ⟨rfl, rfl⟩

theorem procComplete_state (s : St) (ls : List Chars) (r : St × List Frag)
    (h : procComplete s ls = some r) :
    r.1.buffer = s.buffer ∧ (ls = [] → r.1 = s) ∧ (ls ≠ [] → r.1.cur = []) := by
  induction ls generalizing s r with
  | nil =>
    simp only [procComplete, Option.some.injEq] at h
    subst h
    exact ⟨rfl, fun _ => rfl, fun hne => absurd rfl hne⟩
  | cons l ls ih =>
    rw [procComplete] at h
    split at h
    · exact absurd h (by simp)
    next r1 hv =>
      split at h
      · exact absurd h (by simp)
      next r2 hw =>
        simp only [Option.some.injEq] at h
        subst h
        have hb := (processLine_cur_buffer _ _ _ hv).2
        have ihw := ih _ _ hw
        refine ⟨by simpa [hb] using ihw.1, fun hx => absurd hx (by simp), fun _ => ?_⟩
        rcases Decidable.em (ls = []) with he | he
        · rw [ihw.2.1 he]
        · exact ihw.2.2 he

/-- C10: when `add_chunk` returns, the residual `current_line` holds at most
80 characters (a longer pending line was force-dispatched and cleared) and
the raw `buffer` is empty. -/
theorem c10_add_chunk_residual_bounded (s : St) (chunk : Chars)
    (r : St × List Frag) (h : addChunk s chunk = some r) :
    r.1.cur.length ≤ 80 ∧ r.1.buffer = [] := by
  rw [addChunk] at h
  split at h
  · exact absurd h (by simp)
  next r1 hv =>
    have hvb : r1.1.buffer = [] := (procComplete_state _ _ _ hv).1
    simp only [] at h
    split at h
    · split at h
      · exact absurd h (by simp)
      next r2 hw =>
        simp only [Option.some.injEq] at h
        subst h
        have hwb := (processLine_cur_buffer _ _ _ hw).2
        exact ⟨by simp, by simpa [hvb] using hwb⟩
    next hlen =>
      simp only [Option.some.injEq] at h
      subst h
      exact ⟨by simpa using Nat.le_of_not_lt hlen, by simpa using hvb⟩

/-- C10 (witness): a concrete `add_chunk` call satisfying the bound. -/
theorem c10_witness :
    (⟨[], chars "hello", [], false⟩ : St).cur.length ≤ 80 ∧
      (⟨[], chars "hello", [], false⟩ : St).buffer = [] :=
  c10_add_chunk_residual_bounded init (chars "hello")
    (⟨[], chars "hello", [], false⟩, []) (by rfl)

/-- C9: `flush()` is idempotent after its first completed call: whatever
state `flush` ran from, it leaves `current_line` empty and the stack empty,
so a second `flush` returns the empty fragment sequence (and changes
nothing). -/
theorem c9_flush_idempotent (s : St) (r : St × List Frag)
    (h : flushB s = some r) : flushB r.1 = some (r.1, []) := by
  rw [flushB] at h
  have hfields : r.1.stack = [] ∧ r.1.cur = [] := by
    split at h
    · simp only [Option.some.injEq] at h
      rw [← h]
      exact ⟨rfl, rfl⟩
    · split at h
      · exact absurd h (by simp)
      · simp only [Option.some.injEq] at h
        rw [← h]
        exact ⟨rfl, rfl⟩
  rw [flushB, if_pos (by simp [hfields.2])]
  have he : ({ r.1 with stack := [], cur := [] } : St) = r.1 := by
    cases hr : r.1
    simp only
    rw [← hfields.1, ← hfields.2, hr]
  rw [he, hfields.1]
  rfl

/-- C9 (witness): a concrete first `flush` (which closes an open list) after
which the second `flush` returns the empty sequence. -/
theorem c9_witness :
    flushB ⟨[], [], [], true⟩ = some (⟨[], [], [], true⟩, []) :=
  c9_flush_idempotent ⟨[], chars "- a", [], false⟩
    (⟨[], [], [], true⟩, [.openUl, .li, .text ['a'], .closeLi, .closeTag .ul])
    (by rfl)

/-! ## C8: unpaired-marker behaviour of the inline formatter -/

theorem findEmClose_no_star (l : Chars) (h : '*' ∉ l) : findEmClose l = none := by
  induction l with
  | nil => rfl
  | cons c rest ih =>
    have hc : c ≠ '*' := fun hx => h (hx ▸ List.mem_cons_self c rest)
    have hrest : '*' ∉ rest := fun hx => h (List.mem_cons_of_mem c hx)
    by_cases hn : c = '\n'
    · subst hn
      simp [findEmClose]
    · simp [findEmClose, hc, hn, ih hrest]

theorem subStrong_nil (fuel : Nat) : subStrong fuel [] = [] := by
  cases fuel <;> rfl

theorem subStrong_of_le_one_star (fuel : Nat) (l : Chars)
    (h : l.count '*' ≤ 1) : subStrong fuel l = l := by
  induction fuel generalizing l with
  | zero => rfl
  | succ fuel ih =>
    cases l with
    | nil => rfl
    | cons c rest =>
      by_cases hc : c = '*'
      · subst hc
        rw [List.count_cons_self] at h
        have hrest : rest.count '*' = 0 := by omega
        have hnostar : '*' ∉ rest := by
          rw [← List.count_pos_iff]
          omega
        cases rest with
        | nil => simp [subStrong, subStrong_nil]
        | cons c2 rest2 =>
          have hc2 : c2 ≠ '*' := fun hx => hnostar (hx ▸ List.mem_cons_self c2 rest2)
          have hr2 : (c2 :: rest2).count '*' ≤ 1 := by rw [hrest]; omega
          simp [subStrong, hc2, ih _ hr2]
      · rw [List.count_cons_of_ne (fun hx => hc hx.symm)] at h
        simp [subStrong, hc, ih _ h]

theorem subEm_of_le_one_star (fuel : Nat) (l : Chars)
    (h : l.count '*' ≤ 1) : subEm fuel l = l := by
  induction fuel generalizing l with
  | zero => rfl
  | succ fuel ih =>
    cases l with
    | nil => rfl
    | cons c rest =>
      by_cases hc : c = '*'
      · subst hc
        rw [List.count_cons_self] at h
        have hrest : rest.count '*' ≤ 1 := by omega
        have hnostar : '*' ∉ rest := by
          rw [← List.count_pos_iff]
          omega
        simp [subEm, findEmClose_no_star rest hnostar, ih _ hrest]
      · rw [List.count_cons_of_ne (fun hx => hc hx.symm)] at h
        simp [subEm, hc, ih _ h]

/-- C8 (amended): a line holding at most one asterisk is left unchanged by
the inline formatter (a lone unpaired `*` is literal); but a line with two
or more asterisks can see them consumed even without a matching pair — an
unpaired `**` prefix becomes the empty emphasis `<em></em>` (see the
counterexample). -/
theorem c8_amended_lone_marker_literal (l : Chars) (h : l.count '*' ≤ 1) :
    formatInline l = l := by
  unfold formatInline
  rw [subStrong_of_le_one_star _ _ h, subEm_of_le_one_star _ _ h]

/-- C8 (witness): a line with a single unpaired `*` passes through the
formatter verbatim. -/
theorem c8_witness : formatInline (chars "a*b") = chars "a*b" :=
  c8_amended_lone_marker_literal (chars "a*b") (by decide)

/-! ## C2: which lines crash the handlers -/


theorem classify_header_shape (s : Chars) (h : classifyHeader s = true) :
    ∃ c rest, afterHash s = c :: rest ∧ isWs c = true ∧
      1 ≤ (hashRun s).length ∧ (hashRun s).length ≤ 6 := by
  unfold classifyHeader at h
  cases hA : afterHash s with
  | nil => rw [hA] at h; simp at h
  | cons c rest =>
    rw [hA] at h
    simp only [Bool.and_eq_true, decide_eq_true_eq] at h
    exact ⟨c, rest, rfl, h.2, h.1.1, h.1.2⟩

theorem classify_ordered_shape (s : Chars) (h : classifyOrdered s = true) :
    ∃ c rest, afterDigits s = '.' :: c :: rest ∧ isWs c = true ∧
      1 ≤ (digitRun s).length := by
  unfold classifyOrdered at h
  cases hA : afterDigits s with
  | nil => rw [hA] at h; simp at h
  | cons c0 rest0 =>
    rw [hA] at h
    cases rest0 with
    | nil =>
      simp only [Bool.and_eq_true, decide_eq_true_eq] at h
      rcases h with ⟨_, h2⟩
      by_cases hd : c0 = '.'
      · subst hd; simp at h2
      · simp [hd] at h2
    | cons c1 rest1 =>
      by_cases hd : c0 = '.'
      · subst hd
        simp only [Bool.and_eq_true, decide_eq_true_eq] at h
        exact ⟨c1, rest1, rfl, h.2, h.1⟩
      · exfalso
        simp only [Bool.and_eq_true, decide_eq_true_eq] at h
        rcases h with ⟨_, h2⟩
        simp [hd] at h2

theorem hashRun_head (s : Chars) (h : 1 ≤ (hashRun s).length) :
    ∃ s', s = '#' :: s' := by
  cases s with
  | nil => simp [hashRun] at h
  | cons a s' =>
    by_cases ha : a = '#'
    · exact ⟨s', by rw [ha]⟩
    · exfalso
      simp [hashRun, List.takeWhile_cons, ha] at h

theorem classifyOrdered_false_of_header (s : Chars) (h : classifyHeader s = true) :
    classifyOrdered s = false := by
  obtain ⟨c, rest, hA, hw, h1, h6⟩ := classify_header_shape s h
  obtain ⟨s', hs⟩ := hashRun_head s h1
  subst hs
  unfold classifyOrdered digitRun
  simp [List.takeWhile_cons, isDigitCh]

theorem headerReparse_none_iff (s : Chars) (h : classifyHeader s = true)
    (hnl : '\n' ∉ s) : (headerReparse s = none ↔ (afterHash s).length = 1) := by
  obtain ⟨c, rest, hA, hw, h1, h6⟩ := classify_header_shape s h
  unfold headerReparse
  rw [if_pos ⟨h1, h6⟩, hA]
  cases rest with
  | nil => simp
  | cons r rs =>
    have hnr : '\n' ∉ (r :: rs) := by
      intro hx
      have hmem : '\n' ∈ List.dropWhile (· == '#') s := by
        show '\n' ∈ afterHash s
        rw [hA]
        exact List.mem_cons_of_mem c hx
      exact hnl ((List.dropWhile_sublist (· == '#')).subset hmem)
    simp [hw, hnr]



theorem ordReparse_none_iff (s : Chars) (h : classifyOrdered s = true)
    (hnl : '\n' ∉ s) : (ordReparse s = none ↔ (afterDigits s).length = 2) := by
  obtain ⟨c, rest, hA, hw, h1⟩ := classify_ordered_shape s h
  unfold ordReparse
  rw [if_pos h1, hA]
  cases rest with
  | nil => simp
  | cons r rs =>
    have hnr : '\n' ∉ (r :: rs) := by
      intro hx
      have hmem : '\n' ∈ List.dropWhile isDigitCh s := by
        show '\n' ∈ afterDigits s
        rw [hA]
        exact List.mem_cons_of_mem '.' (List.mem_cons_of_mem c hx)
      exact hnl ((List.dropWhile_sublist isDigitCh).subset hmem)
    simp [hw, hnr]

theorem popGT_suffix (st : List Frame) (i : Nat) : (popGT st i).1 <:+ st := by
  induction st with
  | nil => simp [popGT]
  | cons f rest ih =>
    by_cases hf : f.indent > i
    · simp only [popGT, if_pos hf]
      exact ih.trans (List.suffix_cons f rest)
    · simp only [popGT, if_neg hf]
      exact List.suffix_refl _

theorem handleListItem_ul_isSome (stack : List Frame) (n : Nat) (content : Chars)
    (indent : Nat) : (handleListItem stack .ul n content indent).isSome := by
  unfold handleListItem
  simp only []
  rfl

theorem handleListItem_ol_isSome (stack : List Frame)
    (hnum : olNumbered stack = true) (n : Nat) (content : Chars) (indent : Nat) :
    (handleListItem stack .ol n content indent).isSome := by
  cases hp : (popGT stack indent).1 with
  | nil => simp [handleListItem, hp]
  | cons f pfrest =>
    by_cases hpn : f.indent < indent ∨ ¬f.kind = LKind.ol
    · simp [handleListItem, hp, hpn]
    · have hkind : f.kind = LKind.ol := not_not.mp (not_or.mp hpn).2
      have hmem : f ∈ stack :=
        (popGT_suffix stack indent).subset (by rw [hp]; exact List.mem_cons_self f pfrest)
      have hsome : f.last.isSome := by
        have hall := List.all_eq_true.mp hnum f hmem
        simp [hkind] at hall
        exact hall
      obtain ⟨m, hm⟩ := Option.isSome_iff_exists.mp hsome
      simp [handleListItem, hp, hpn, hm]



theorem c2_amended_totality (s : St) (line : Chars) (hnum : olNumbered s.stack = true)
    (hnl : '\n' ∉ line) :
    (processLine s line = none ↔ isDegenerate (lstrip line) = true) := by
  unfold processLine
  rw [Option.map_eq_none']
  unfold processLineCore
  simp only []
  have hnlt : '\n' ∉ lstrip line := fun hx => hnl ((List.dropWhile_sublist isWs).subset hx)
  by_cases h1 : classifyHeader (lstrip line) = true
  · rw [if_pos h1]
    have hord := classifyOrdered_false_of_header _ h1
    have hiff := headerReparse_none_iff _ h1 hnlt
    cases hr : headerReparse (lstrip line) with
    | none => simp [isDegenerate, h1, hord, hiff.mp hr]
    | some v =>
      have hne : (afterHash (lstrip line)).length ≠ 1 := fun hlen => by
        rw [← hiff, hr] at hlen
        exact Option.noConfusion hlen
      simp [isDegenerate, h1, hord, hne]
  · rw [if_neg h1]
    replace h1 : classifyHeader (lstrip line) = false := by
      cases hc : classifyHeader (lstrip line)
      · rfl
      · exact absurd hc h1
    by_cases h2 : classifyOrdered (lstrip line) = true
    · rw [if_pos h2]
      have hiff := ordReparse_none_iff _ h2 hnlt
      cases hr : ordReparse (lstrip line) with
      | none => simp [isDegenerate, h1, h2, hiff.mp hr]
      | some v =>
        obtain ⟨n, content⟩ := v
        have hne : (afterDigits (lstrip line)).length ≠ 2 := fun hlen => by
          rw [← hiff, hr] at hlen
          exact Option.noConfusion hlen
        have hsome := handleListItem_ol_isSome s.stack hnum n (formatInline content)
          (line.length - (lstrip line).length)
        have hne2 : handleListItem s.stack .ol n (formatInline content)
            (line.length - (lstrip line).length) ≠ none := by
          intro hx
          rw [hx] at hsome
          exact Bool.noConfusion hsome
        simp [isDegenerate, h1, h2, hne, hne2]
    · rw [if_neg h2]
      replace h2 : classifyOrdered (lstrip line) = false := by
        cases hc : classifyOrdered (lstrip line)
        · rfl
        · exact absurd hc h2
      by_cases h3 : (match lstrip line with | '-' :: ' ' :: _ => true | _ => false) = true
      · rw [if_pos h3]
        have hsome := handleListItem_ul_isSome s.stack 0
          (formatInline ((lstrip line).drop 2)) (line.length - (lstrip line).length)
        have hne2 : handleListItem s.stack .ul 0 (formatInline ((lstrip line).drop 2))
            (line.length - (lstrip line).length) ≠ none := by
          intro hx
          rw [hx] at hsome
          exact Bool.noConfusion hsome
        simp [isDegenerate, h1, h2, hne2]
      · rw [if_neg h3]
        by_cases h4 : (rstrip (lstrip (lstrip line))).isEmpty = true
        · rw [if_pos h4]
          simp [isDegenerate, h1, h2]
        · rw [if_neg h4]
          by_cases h5 : s.inList = true
          · rw [if_pos h5]
            simp [isDegenerate, h1, h2]
          · rw [if_neg h5]
            simp [isDegenerate, h1, h2]


/-- C2 (amended): with a well-formed stack (every ordered frame numbered, as
in every reachable state), processing a newline-free ASCII line fails
exactly on the degenerate lines: a 1–6 `#` run or a digit run plus `.`,
followed by one whitespace character and nothing else — there the classifier
matches but the handler re-parse fails and dereferences `None`.  Every other
such line is handled successfully.  The statement is scoped to ASCII lines
because Python's `\d` also matches non-ASCII Unicode decimal digits, which
the embedding does not model (on ASCII, `\d` is exactly `[0-9]`, and the
whitespace predicate is modelled exactly for all characters). -/
theorem c2_amended_crash_iff_degenerate (s : St) (line : Chars)
    (hnum : olNumbered s.stack = true) (hnl : '\n' ∉ line)
    (_hascii : line.all (fun c => c.toNat < 128) = true) :
    (processLine s line = none ↔ isDegenerate (lstrip line) = true) :=
  c2_amended_totality s line hnum hnl

/-- C2 (witness): the non-degenerate ASCII line `"# t"` is processed
successfully from the fresh state. -/
theorem c2_witness :
    (processLine init (chars "# t") = none ↔
      isDegenerate (lstrip (chars "# t")) = true) :=
  c2_amended_crash_iff_degenerate init (chars "# t") (by decide) (by decide)
    (by decide)

/-! ## C1: tag accounting over complete runs -/


theorem popGT_counts (st : List Frame) (i : Nat) :
    (popGT st i).2.countP isCloseLiB = (popGT st i).2.countP isCloseTagB ∧
    (popGT st i).2.countP isCloseTagB + (popGT st i).1.length = st.length ∧
    (popGT st i).2.countP isOpenTagB = 0 ∧
    (popGT st i).2.countP isLiB = 0 := by
  induction st with
  | nil => simp [popGT]
  | cons f rest ih =>
    obtain ⟨ih1, ih2, ih3, ih4⟩ := ih
    by_cases hf : f.indent > i
    · simp [popGT, if_pos hf, List.countP_cons, isCloseLiB, isCloseTagB,
        isOpenTagB, isLiB]
      refine ⟨ih1, by omega, fun a ha => ?_, fun a ha => ?_⟩
      · have hz := List.countP_eq_zero.mp ih3 a ha
        simpa [isOpenTagB] using hz
      · have hz := List.countP_eq_zero.mp ih4 a ha
        simpa [isLiB] using hz
    · simp only [popGT, if_neg hf]
      simp

theorem closeAll_counts (st : List Frame) :
    (closeAll st).countP isCloseLiB = st.length ∧
    (closeAll st).countP isCloseTagB = st.length ∧
    (closeAll st).countP isOpenTagB = 0 ∧
    (closeAll st).countP isLiB = 0 := by
  induction st with
  | nil => simp [closeAll]
  | cons f rest ih =>
    obtain ⟨ih1, ih2, ih3, ih4⟩ := ih
    simp only [closeAll, List.flatMap_cons] at ih1 ih2 ih3 ih4 ⊢
    simp [List.countP_append, List.countP_cons, isCloseLiB, isCloseTagB,
      isOpenTagB, isLiB, ih1, ih2, ih3, ih4]



theorem handleListItem_counts (stack : List Frame) (k : LKind) (n : Nat)
    (content : Chars) (indent : Nat) (r : List Frame × List Frag)
    (h : handleListItem stack k n content indent = some r) :
    r.2.countP isCloseLiB = r.2.countP isCloseTagB ∧
    r.2.countP isOpenTagB + stack.length = r.2.countP isCloseTagB + r.1.length := by
  obtain ⟨hc1, hc2, hc3, hc4⟩ := popGT_counts stack indent
  cases k with
  | ul =>
    cases hp : (popGT stack indent).1 with
    | nil =>
      rw [hp] at hc2
      simp only [List.length_nil, Nat.add_zero] at hc2
      simp only [handleListItem, hp, Option.some.injEq] at h
      subst h
      simp [List.countP_append, List.countP_cons, isCloseLiB, isCloseTagB,
        isOpenTagB, isLiB, hc1, hc3, hc4]
      omega
    | cons f pfrest =>
      rw [hp] at hc2
      simp only [List.length_cons] at hc2
      have hb : ((decide (f.indent < indent) || decide (f.kind ≠ LKind.ul)) = true) ↔
          (f.indent < indent ∨ ¬f.kind = LKind.ul) := by simp
      by_cases hpn : f.indent < indent ∨ ¬f.kind = LKind.ul
      · simp only [handleListItem, hp] at h
        rw [if_pos (hb.mpr hpn), if_pos (hb.mpr hpn)] at h
        simp only [Option.some.injEq] at h
        subst h
        simp [List.countP_append, List.countP_cons, isCloseLiB, isCloseTagB,
          isOpenTagB, isLiB, hc1, hc3, hc4]
        omega
      · simp only [handleListItem, hp] at h
        rw [if_neg (fun hx => hpn (hb.mp hx)), if_neg (fun hx => hpn (hb.mp hx))] at h
        simp only [Option.some.injEq] at h
        subst h
        simp [List.countP_append, List.countP_cons, isCloseLiB, isCloseTagB,
          isOpenTagB, isLiB, hc1, hc3, hc4]
        omega
  | ol =>
    cases hp : (popGT stack indent).1 with
    | nil =>
      rw [hp] at hc2
      simp only [List.length_nil, Nat.add_zero] at hc2
      simp only [handleListItem, hp, if_true, Option.some.injEq] at h
      subst h
      refine ⟨?_, ?_⟩
      · simp [List.countP_append, List.countP_cons, isCloseLiB, isCloseTagB,
          isLiB, hc1]
      · simp [List.countP_append, List.countP_cons, isCloseTagB, isOpenTagB,
          isLiB, hc3]
        omega
    | cons f pfrest =>
      rw [hp] at hc2
      simp only [List.length_cons] at hc2
      have hb : ((decide (f.indent < indent) || decide (f.kind ≠ LKind.ol)) = true) ↔
          (f.indent < indent ∨ ¬f.kind = LKind.ol) := by simp
      by_cases hpn : f.indent < indent ∨ ¬f.kind = LKind.ol
      · simp only [handleListItem, hp] at h
        rw [if_pos (hb.mpr hpn), if_pos (hb.mpr hpn)] at h
        simp only [if_true, Option.some.injEq] at h
        subst h
        refine ⟨?_, ?_⟩
        · simp [List.countP_append, List.countP_cons, isCloseLiB, isCloseTagB,
            isLiB, hc1]
        · simp [List.countP_append, List.countP_cons, isCloseTagB, isOpenTagB,
            isLiB, hc3]
          omega
      · simp only [handleListItem, hp] at h
        rw [if_neg (fun hx => hpn (hb.mp hx)), if_neg (fun hx => hpn (hb.mp hx))] at h
        simp only [] at h
        cases hlast : f.last with
        | none => rw [hlast] at h; simp only [] at h; exact absurd h (by simp)
        | some m =>
          rw [hlast] at h
          simp only [Option.some.injEq] at h
          subst h
          refine ⟨?_, ?_⟩
          · simp [List.countP_append, List.countP_cons, isCloseLiB, isCloseTagB,
              isLiB, hc1]
            split <;> simp
          · simp [List.countP_append, List.countP_cons, isCloseTagB, isOpenTagB,
              isLiB, hc3]
            split <;> simp [isOpenTagB, isCloseTagB, isLiB] <;> omega

theorem processLineCore_counts (stack : List Frame) (inList : Bool)
    (line : Chars) (r : List Frame × Bool × List Frag)
    (h : processLineCore stack inList line = some r) :
    r.2.2.countP isCloseLiB = r.2.2.countP isCloseTagB ∧
    r.2.2.countP isCloseTagB + r.1.length ≤ r.2.2.countP isOpenTagB + stack.length := by
  unfold processLineCore at h
  simp only [] at h
  by_cases h1 : classifyHeader (lstrip line) = true
  · rw [if_pos h1] at h
    cases hr : headerReparse (lstrip line) with
    | none => rw [hr] at h; exact absurd h (by simp)
    | some v =>
      rw [hr] at h
      simp only [Option.some.injEq] at h
      subst h
      simp [isCloseLiB, isCloseTagB, isOpenTagB]
  · rw [if_neg h1] at h
    by_cases h2 : classifyOrdered (lstrip line) = true
    · rw [if_pos h2] at h
      cases hr : ordReparse (lstrip line) with
      | none => rw [hr] at h; exact absurd h (by simp)
      | some v =>
        obtain ⟨n, content⟩ := v
        rw [hr] at h
        simp only [] at h
        cases hh : handleListItem stack .ol n (formatInline content)
            (line.length - (lstrip line).length) with
        | none => rw [hh] at h; exact absurd h (by simp)
        | some q =>
          rw [hh] at h
          simp only [Option.map_some', Option.some.injEq] at h
          subst h
          have hcnt := handleListItem_counts _ _ _ _ _ _ hh
          dsimp only
          exact ⟨hcnt.1, by omega⟩
    · rw [if_neg h2] at h
      by_cases h3 : (match lstrip line with | '-' :: ' ' :: _ => true | _ => false) = true
      · rw [if_pos h3] at h
        cases hh : handleListItem stack .ul 0 (formatInline ((lstrip line).drop 2))
            (line.length - (lstrip line).length) with
        | none => rw [hh] at h; exact absurd h (by simp)
        | some q =>
          rw [hh] at h
          simp only [Option.map_some', Option.some.injEq] at h
          subst h
          have hcnt := handleListItem_counts _ _ _ _ _ _ hh
          dsimp only
          exact ⟨hcnt.1, by omega⟩
      · rw [if_neg h3] at h
        by_cases h4 : (rstrip (lstrip (lstrip line))).isEmpty = true
        · rw [if_pos h4] at h
          simp only [Option.some.injEq] at h
          subst h
          simp [isCloseLiB, isCloseTagB, isOpenTagB]
        · rw [if_neg h4] at h
          by_cases h5 : inList = true
          · rw [if_pos h5] at h
            simp only [Option.some.injEq] at h
            subst h
            simp [isCloseLiB, isCloseTagB, isOpenTagB]
          · rw [if_neg h5] at h
            simp only [Option.some.injEq] at h
            subst h
            have := (popGT_counts stack (line.length - (lstrip line).length)).2.1
            simp [isCloseLiB, isCloseTagB, isOpenTagB]
            omega

theorem processLine_counts (s : St) (line : Chars) (r : St × List Frag)
    (h : processLine s line = some r) :
    r.2.countP isCloseLiB = r.2.countP isCloseTagB ∧
    r.2.countP isCloseTagB + r.1.stack.length ≤
      r.2.countP isOpenTagB + s.stack.length := by
  unfold processLine at h
  cases hc : processLineCore s.stack s.inList line with
  | none => rw [hc] at h; exact absurd h (by simp)
  | some v =>
    rw [hc] at h
    simp only [Option.map_some', Option.some.injEq] at h
    subst h
    exact processLineCore_counts _ _ _ _ hc

theorem procComplete_counts (s : St) (ls : List Chars) (r : St × List Frag)
    (h : procComplete s ls = some r) :
    r.2.countP isCloseLiB = r.2.countP isCloseTagB ∧
    r.2.countP isCloseTagB + r.1.stack.length ≤
      r.2.countP isOpenTagB + s.stack.length := by
  induction ls generalizing s r with
  | nil =>
    simp only [procComplete, Option.some.injEq] at h
    subst h
    simp
  | cons l ls ih =>
    rw [procComplete] at h
    split at h
    · exact absurd h (by simp)
    next r1 hv =>
      split at h
      · exact absurd h (by simp)
      next r2 hw =>
        simp only [Option.some.injEq] at h
        subst h
        have h1 := processLine_counts _ _ _ hv
        have h2 := ih _ _ hw
        simp only [List.countP_append]
        constructor
        · omega
        · simp only [St.stack] at h2 ⊢
          omega

theorem addChunk_counts (s : St) (chunk : Chars) (r : St × List Frag)
    (h : addChunk s chunk = some r) :
    r.2.countP isCloseLiB = r.2.countP isCloseTagB ∧
    r.2.countP isCloseTagB + r.1.stack.length ≤
      r.2.countP isOpenTagB + s.stack.length := by
  rw [addChunk] at h
  split at h
  · exact absurd h (by simp)
  next r1 hv =>
    have h1 := procComplete_counts _ _ _ hv
    simp only [] at h
    split at h
    · split at h
      · exact absurd h (by simp)
      next r2 hw =>
        simp only [Option.some.injEq] at h
        subst h
        have h2 := processLine_counts _ _ _ hw
        simp only [List.countP_append]
        constructor
        · omega
        · simp only [St.stack] at h1 h2 ⊢
          omega
    next hlen =>
      simp only [Option.some.injEq] at h
      subst h
      exact ⟨h1.1, h1.2⟩

theorem feedChunks_counts (s : St) (cs : List Chars) (r : St × List Frag)
    (h : feedChunks s cs = some r) :
    r.2.countP isCloseLiB = r.2.countP isCloseTagB ∧
    r.2.countP isCloseTagB + r.1.stack.length ≤
      r.2.countP isOpenTagB + s.stack.length := by
  induction cs generalizing s r with
  | nil =>
    simp only [feedChunks, Option.some.injEq] at h
    subst h
    simp
  | cons c cs ih =>
    rw [feedChunks] at h
    split at h
    · exact absurd h (by simp)
    next r1 hv =>
      split at h
      · exact absurd h (by simp)
      next r2 hw =>
        simp only [Option.some.injEq] at h
        subst h
        have h1 := addChunk_counts _ _ _ hv
        have h2 := ih _ _ hw
        simp only [List.countP_append]
        exact ⟨by omega, by omega⟩

theorem flushB_counts (s : St) (r : St × List Frag) (h : flushB s = some r) :
    r.2.countP isCloseLiB = r.2.countP isCloseTagB ∧
    r.2.countP isCloseTagB ≤ r.2.countP isOpenTagB + s.stack.length := by
  rw [flushB] at h
  split at h
  · simp only [Option.some.injEq] at h
    subst h
    obtain ⟨hA, hB, hC, hD⟩ := closeAll_counts s.stack
    dsimp only
    exact ⟨by omega, by omega⟩
  · split at h
    · exact absurd h (by simp)
    next r1 hv =>
      simp only [Option.some.injEq] at h
      subst h
      have h1 := processLine_counts _ _ _ hv
      obtain ⟨hA, hB, hC, hD⟩ := closeAll_counts r1.1.stack
      dsimp only
      simp only [List.countP_append]
      exact ⟨by omega, by omega⟩

/-- C1 (amended): in any completed run, the number of emitted `</li>` equals
the number of emitted list-closing tags (each frame close emits exactly the
pair `</li></ul>` or `</li></ol>`), and the number of list-closing tags
never exceeds the number of list-opening tags (headers and dedented plain
text discard close fragments, and consecutive `<li>` share one `</li>`, so
neither claimed equality holds as stated). -/
theorem c1_amended_tag_accounting (cs : List Chars) (out : List Frag)
    (h : runChunks cs = some out) :
    out.countP isCloseLiB = out.countP isCloseTagB ∧
    out.countP isCloseTagB ≤ out.countP isOpenTagB := by
  rw [runChunks] at h
  split at h
  · exact absurd h (by simp)
  next r1 hv =>
    split at h
    · exact absurd h (by simp)
    next r2 hw =>
      simp only [Option.some.injEq] at h
      subst h
      have h1 := feedChunks_counts _ _ _ hv
      have h2 := flushB_counts _ _ hw
      have hinit : (init : St).stack.length = 0 := rfl
      simp only [List.countP_append]
      rw [hinit] at h1
      exact ⟨by omega, by omega⟩

/-- C1 (witness): the accounting holds on the concrete run `"- a\n"`. -/
theorem c1_witness :
    ([Frag.openUl, Frag.li, Frag.text ['a'], Frag.closeLi,
        Frag.closeTag .ul] : List Frag).countP isCloseLiB =
      ([Frag.openUl, Frag.li, Frag.text ['a'], Frag.closeLi,
        Frag.closeTag .ul] : List Frag).countP isCloseTagB ∧
    ([Frag.openUl, Frag.li, Frag.text ['a'], Frag.closeLi,
        Frag.closeTag .ul] : List Frag).countP isCloseTagB ≤
      ([Frag.openUl, Frag.li, Frag.text ['a'], Frag.closeLi,
        Frag.closeTag .ul] : List Frag).countP isOpenTagB :=
  c1_amended_tag_accounting [chars "- a\n"] _ (by rfl)

/-! ## C7: the stack invariant the code maintains -/


theorem stackShapeB_tail (f : Frame) (rest : List Frame)
    (h : stackShapeB (f :: rest) = true) : stackShapeB rest = true := by
  cases rest with
  | nil => rfl
  | cons g rest2 =>
    rw [stackShapeB, Bool.and_eq_true] at h
    exact h.2

theorem stackShapeB_app (t l1 : List Frame)
    (h : stackShapeB (t ++ l1) = true) : stackShapeB l1 = true := by
  induction t with
  | nil => simpa using h
  | cons a t ih => exact ih (stackShapeB_tail a (t ++ l1) (by simpa using h))

theorem stackShapeB_suffix (l1 l2 : List Frame) (hs : l1 <:+ l2)
    (h : stackShapeB l2 = true) : stackShapeB l1 = true := by
  obtain ⟨t, ht⟩ := hs
  subst ht
  exact stackShapeB_app t l1 h

theorem popGT_top_le (st : List Frame) (i : Nat) (f : Frame) (rest : List Frame)
    (h : (popGT st i).1 = f :: rest) : f.indent ≤ i := by
  induction st with
  | nil => simp [popGT] at h
  | cons g st' ih =>
    by_cases hg : g.indent > i
    · rw [popGT] at h
      rw [if_pos hg] at h
      exact ih h
    · rw [popGT] at h
      rw [if_neg hg] at h
      dsimp only at h
      injection h with h1 h2
      subst h1
      omega

theorem stackShapeB_push (k : LKind) (i : Nat) (l : Option Nat)
    (st : List Frame) (hshape : stackShapeB st = true)
    (htop : ∀ f rest, st = f :: rest → f.indent ≤ i ∧ (f.indent < i ∨ ¬f.kind = k)) :
    stackShapeB (⟨k, i, l⟩ :: st) = true := by
  cases st with
  | nil => rfl
  | cons f rest =>
    obtain ⟨hle, hor⟩ := htop f rest rfl
    rw [stackShapeB, Bool.and_eq_true]
    refine ⟨?_, hshape⟩
    rcases Nat.lt_or_ge f.indent i with hlt | hge
    · simp [hlt]
    · have heq : f.indent = i := Nat.le_antisymm hle hge
      have hkind : ¬f.kind = k := by
        rcases hor with hlt2 | hk
        · omega
        · exact hk
      simp [heq, bne_iff_ne, hkind]

theorem stackShapeB_relabel (k : LKind) (i : Nat) (l l' : Option Nat)
    (rest : List Frame) :
    stackShapeB (⟨k, i, l⟩ :: rest) = stackShapeB (⟨k, i, l'⟩ :: rest) := by
  cases rest with
  | nil => rfl
  | cons g rest2 => rfl

theorem handleListItem_shape (stack : List Frame) (k : LKind) (n : Nat)
    (content : Chars) (indent : Nat) (r : List Frame × List Frag)
    (hshape : stackShapeB stack = true)
    (h : handleListItem stack k n content indent = some r) :
    stackShapeB r.1 = true := by
  have hp1 : stackShapeB (popGT stack indent).1 = true :=
    stackShapeB_suffix _ _ (popGT_suffix stack indent) hshape
  cases k with
  | ul =>
    cases hp : (popGT stack indent).1 with
    | nil =>
      simp only [handleListItem, hp, Option.some.injEq] at h
      subst h
      rfl
    | cons f pfrest =>
      rw [hp] at hp1
      have hb : ((decide (f.indent < indent) || decide (f.kind ≠ LKind.ul)) = true) ↔
          (f.indent < indent ∨ ¬f.kind = LKind.ul) := by simp
      by_cases hpn : f.indent < indent ∨ ¬f.kind = LKind.ul
      · simp only [handleListItem, hp] at h
        rw [if_pos (hb.mpr hpn), if_pos (hb.mpr hpn)] at h
        simp only [Option.some.injEq] at h
        subst h
        exact stackShapeB_push _ _ _ _ hp1 (fun g grest hg => by
          rw [hg] at hp
          injection hg with h1 h2
          subst h1
          exact ⟨popGT_top_le stack indent _ _ (by rw [hp, ← h2]), hpn⟩)
      · simp only [handleListItem, hp] at h
        rw [if_neg (fun hx => hpn (hb.mp hx)), if_neg (fun hx => hpn (hb.mp hx))] at h
        simp only [Option.some.injEq] at h
        subst h
        exact hp1
  | ol =>
    cases hp : (popGT stack indent).1 with
    | nil =>
      simp only [handleListItem, hp, if_true, Option.some.injEq] at h
      subst h
      rfl
    | cons f pfrest =>
      rw [hp] at hp1
      have hb : ((decide (f.indent < indent) || decide (f.kind ≠ LKind.ol)) = true) ↔
          (f.indent < indent ∨ ¬f.kind = LKind.ol) := by simp
      by_cases hpn : f.indent < indent ∨ ¬f.kind = LKind.ol
      · simp only [handleListItem, hp] at h
        rw [if_pos (hb.mpr hpn), if_pos (hb.mpr hpn)] at h
        simp only [if_true, Option.some.injEq] at h
        subst h
        rw [stackShapeB_relabel LKind.ol indent (some n) (some n)]
        exact stackShapeB_push _ _ _ _ hp1 (fun g grest hg => by
          injection hg with h1 h2
          subst h1
          exact ⟨popGT_top_le stack indent _ _ hp, hpn⟩)
      · simp only [handleListItem, hp] at h
        rw [if_neg (fun hx => hpn (hb.mp hx)), if_neg (fun hx => hpn (hb.mp hx))] at h
        simp only [] at h
        cases hlast : f.last with
        | none => rw [hlast] at h; simp only [] at h; exact absurd h (by simp)
        | some m =>
          rw [hlast] at h
          simp only [Option.some.injEq] at h
          subst h
          have : stackShapeB ({ kind := f.kind, indent := f.indent, last := some n } :: pfrest) =
              stackShapeB (f :: pfrest) := by
            cases f
            exact stackShapeB_relabel _ _ _ _ _
          rw [this]
          exact hp1



theorem processLineCore_shape (stack : List Frame) (inList : Bool)
    (line : Chars) (r : List Frame × Bool × List Frag)
    (hshape : stackShapeB stack = true)
    (h : processLineCore stack inList line = some r) :
    stackShapeB r.1 = true := by
  unfold processLineCore at h
  simp only [] at h
  by_cases h1 : classifyHeader (lstrip line) = true
  · rw [if_pos h1] at h
    cases hr : headerReparse (lstrip line) with
    | none => rw [hr] at h; exact absurd h (by simp)
    | some v =>
      rw [hr] at h
      simp only [Option.some.injEq] at h
      subst h
      rfl
  · rw [if_neg h1] at h
    by_cases h2 : classifyOrdered (lstrip line) = true
    · rw [if_pos h2] at h
      cases hr : ordReparse (lstrip line) with
      | none => rw [hr] at h; exact absurd h (by simp)
      | some v =>
        obtain ⟨n, content⟩ := v
        rw [hr] at h
        simp only [] at h
        cases hh : handleListItem stack .ol n (formatInline content)
            (line.length - (lstrip line).length) with
        | none => rw [hh] at h; exact absurd h (by simp)
        | some q =>
          rw [hh] at h
          simp only [Option.map_some', Option.some.injEq] at h
          subst h
          exact handleListItem_shape _ _ _ _ _ _ hshape hh
    · rw [if_neg h2] at h
      by_cases h3 : (match lstrip line with | '-' :: ' ' :: _ => true | _ => false) = true
      · rw [if_pos h3] at h
        cases hh : handleListItem stack .ul 0 (formatInline ((lstrip line).drop 2))
            (line.length - (lstrip line).length) with
        | none => rw [hh] at h; exact absurd h (by simp)
        | some q =>
          rw [hh] at h
          simp only [Option.map_some', Option.some.injEq] at h
          subst h
          exact handleListItem_shape _ _ _ _ _ _ hshape hh
      · rw [if_neg h3] at h
        by_cases h4 : (rstrip (lstrip (lstrip line))).isEmpty = true
        · rw [if_pos h4] at h
          simp only [Option.some.injEq] at h
          subst h
          exact hshape
        · rw [if_neg h4] at h
          by_cases h5 : inList = true
          · rw [if_pos h5] at h
            simp only [Option.some.injEq] at h
            subst h
            exact hshape
          · rw [if_neg h5] at h
            simp only [Option.some.injEq] at h
            subst h
            exact stackShapeB_suffix _ _
              (popGT_suffix stack (line.length - (lstrip line).length)) hshape

theorem processLine_shape (s : St) (line : Chars) (r : St × List Frag)
    (hshape : stackShapeB s.stack = true) (h : processLine s line = some r) :
    stackShapeB r.1.stack = true := by
  unfold processLine at h
  cases hc : processLineCore s.stack s.inList line with
  | none => rw [hc] at h; exact absurd h (by simp)
  | some v =>
    rw [hc] at h
    simp only [Option.map_some', Option.some.injEq] at h
    subst h
    exact processLineCore_shape _ _ _ _ hshape hc

theorem procComplete_shape (s : St) (ls : List Chars) (r : St × List Frag)
    (hshape : stackShapeB s.stack = true) (h : procComplete s ls = some r) :
    stackShapeB r.1.stack = true := by
  induction ls generalizing s r with
  | nil =>
    simp only [procComplete, Option.some.injEq] at h
    subst h
    exact hshape
  | cons l ls ih =>
    rw [procComplete] at h
    split at h
    · exact absurd h (by simp)
    next r1 hv =>
      split at h
      · exact absurd h (by simp)
      next r2 hw =>
        simp only [Option.some.injEq] at h
        subst h
        exact ih { r1.1 with cur := [] } r2 (processLine_shape _ _ _ hshape hv) hw

theorem addChunk_shape (s : St) (chunk : Chars) (r : St × List Frag)
    (hshape : stackShapeB s.stack = true) (h : addChunk s chunk = some r) :
    stackShapeB r.1.stack = true := by
  rw [addChunk] at h
  split at h
  · exact absurd h (by simp)
  next r1 hv =>
    have h1 := procComplete_shape { s with buffer := [] } _ _ hshape hv
    simp only [] at h
    split at h
    · split at h
      · exact absurd h (by simp)
      next r2 hw =>
        simp only [Option.some.injEq] at h
        subst h
        exact processLine_shape
          { r1.1 with cur := r1.1.cur ++ (splitNl (s.buffer ++ chunk)).2 } _ r2 h1 hw
    next hlen =>
      simp only [Option.some.injEq] at h
      subst h
      exact h1

theorem feedChunks_shape (s : St) (cs : List Chars) (r : St × List Frag)
    (hshape : stackShapeB s.stack = true) (h : feedChunks s cs = some r) :
    stackShapeB r.1.stack = true := by
  induction cs generalizing s r with
  | nil =>
    simp only [feedChunks, Option.some.injEq] at h
    subst h
    exact hshape
  | cons c cs ih =>
    rw [feedChunks] at h
    split at h
    · exact absurd h (by simp)
    next r1 hv =>
      split at h
      · exact absurd h (by simp)
      next r2 hw =>
        simp only [Option.some.injEq] at h
        subst h
        exact ih r1.1 r2 (addChunk_shape _ _ _ hshape hv) hw

/-- C7 (amended): in every reachable state, stack indents weakly increase
from bottom (outermost) to top, and two ADJACENT frames with equal indent
differ in kind.  (Strict increase fails — a kind change at equal indent
pushes a second frame with the same indent — and non-adjacent frames can
repeat a (kind, indent) pair; see the counterexample.) -/
theorem c7_amended_stack_shape (s : St) (hr : ReachableSt s) :
    stackShapeB s.stack = true := by
  obtain ⟨cs, out, hfeed⟩ := hr
  exact feedChunks_shape init cs (s, out) rfl hfeed

/-- C7 (witness): the amended invariant holds at the concrete reachable
state left by `"- a\n1. b\n"` (an ordered frame atop an unordered frame at
equal indent). -/
theorem c7_witness :
    stackShapeB (⟨[], [], [⟨.ol, 0, some 1⟩, ⟨.ul, 0, none⟩], true⟩ : St).stack = true :=
  c7_amended_stack_shape ⟨[], [], [⟨.ol, 0, some 1⟩, ⟨.ul, 0, none⟩], true⟩
    ⟨[chars "- a\n1. b\n"],
     [.openUl, .li, .text ['a'], .openOl 1, .liVal 1, .text ['b']], by rfl⟩

/-! ## C6: chunk-boundary composition -/


theorem splitNl_ne_start (c : Char) (rest : Chars) (h : ¬c = '\n') :
    splitNl (c :: rest) =
      (match (splitNl rest).1 with
       | [] => ([], c :: (splitNl rest).2)
       | l :: ls => ((c :: l) :: ls, (splitNl rest).2)) := by
  rw [splitNl]
  simp only [if_neg h]

theorem splitNl_append_nolines (a b : Chars) (hb : (splitNl b).1 = []) :
    splitNl (a ++ b) = ((splitNl a).1, (splitNl a).2 ++ (splitNl b).2) := by
  induction a with
  | nil =>
    simp only [List.nil_append]
    rw [show splitNl ([] : Chars) = ([], []) from rfl]
    simp only [List.nil_append]
    rw [← hb]
  | cons c a ih =>
    by_cases hc : c = '\n'
    · subst hc
      rw [show ('\n' :: a) ++ b = '\n' :: (a ++ b) from rfl]
      rw [splitNl, if_pos rfl, ih, splitNl, if_pos rfl]
    · rw [show (c :: a) ++ b = c :: (a ++ b) from rfl]
      rw [splitNl_ne_start c (a ++ b) hc, ih, splitNl_ne_start c a hc]
      cases ha : (splitNl a).1 with
      | nil => simp
      | cons l ls => simp

theorem splitNl_append_lines (a b : Chars) (l0 : Chars) (ls : List Chars)
    (hb : (splitNl b).1 = l0 :: ls) :
    splitNl (a ++ b) =
      ((splitNl a).1 ++ ((splitNl a).2 ++ l0) :: ls, (splitNl b).2) := by
  induction a with
  | nil =>
    simp only [List.nil_append]
    rw [show splitNl ([] : Chars) = ([], []) from rfl]
    simp only [List.nil_append]
    rw [← hb]
  | cons c a ih =>
    by_cases hc : c = '\n'
    · subst hc
      rw [show ('\n' :: a) ++ b = '\n' :: (a ++ b) from rfl]
      rw [splitNl, if_pos rfl, ih, splitNl, if_pos rfl]
      simp
    · rw [show (c :: a) ++ b = c :: (a ++ b) from rfl]
      rw [splitNl_ne_start c (a ++ b) hc, ih, splitNl_ne_start c a hc]
      cases ha : (splitNl a).1 with
      | nil => simp
      | cons l ls' => simp

theorem procComplete_append (s : St) (xs ys : List Chars) :
    procComplete s (xs ++ ys) =
      match procComplete s xs with
      | none => none
      | some r1 =>
        match procComplete r1.1 ys with
        | none => none
        | some r2 => some (r2.1, r1.2 ++ r2.2) := by
  induction xs generalizing s with
  | nil =>
    simp only [List.nil_append, procComplete]
    cases h : procComplete s ys with
    | none => rfl
    | some r => simp
  | cons x xs ih =>
    rw [show (x :: xs) ++ ys = x :: (xs ++ ys) from rfl]
    rw [procComplete, procComplete]
    cases hv : processLine s (s.cur ++ x) with
    | none => rfl
    | some r1 =>
      simp only []
      rw [ih { r1.1 with cur := [] }]
      cases hw : procComplete { r1.1 with cur := [] } xs with
      | none => rfl
      | some r2 =>
        simp only []
        cases hz : procComplete r2.1 ys with
        | none => rfl
        | some r3 => simp



theorem processLine_congr (s1 s2 : St) (line : Chars)
    (hst : s1.stack = s2.stack) (hil : s1.inList = s2.inList) :
    processLine s1 line =
      (processLine s2 line).map
        (fun r => ({ r.1 with cur := s1.cur, buffer := s1.buffer }, r.2)) := by
  unfold processLine
  rw [hst, hil]
  cases h : processLineCore s2.stack s2.inList line with
  | none => rfl
  | some v => rfl

theorem St_eta_buffer (x : St) (h : x.buffer = []) :
    ({ x with buffer := [] } : St) = x := by
  cases x with
  | mk b c st il =>
    simp only [] at h ⊢
    rw [h]

theorem pendingAfter_eq (s : St) (a : Chars) (r1 : St × List Frag)
    (hv : procComplete { s with buffer := [] } (splitNl (s.buffer ++ a)).1 = some r1) :
    r1.1.cur ++ (splitNl (s.buffer ++ a)).2 = pendingAfter s a := by
  unfold pendingAfter
  simp only []
  rcases Decidable.em ((splitNl (s.buffer ++ a)).1 = []) with he | he
  · have h1 := (procComplete_state _ _ _ hv).2.1 he
    rw [h1, he]
    rfl
  · have h1 := (procComplete_state _ _ _ hv).2.2 he
    rw [h1]
    have : (splitNl (s.buffer ++ a)).1.isEmpty = false := by
      cases hx : (splitNl (s.buffer ++ a)).1 with
      | nil => exact absurd hx he
      | cons p ps => rfl
    rw [this]
    rfl

theorem addChunk_noforce (s : St) (a : Chars) (hnf : noForce s a) :
    addChunk s a =
      match procComplete { s with buffer := [] } (splitNl (s.buffer ++ a)).1 with
      | none => none
      | some r1 =>
        some ({ r1.1 with cur := r1.1.cur ++ (splitNl (s.buffer ++ a)).2 }, r1.2) := by
  rw [addChunk]
  cases hv : procComplete { s with buffer := [] } (splitNl (s.buffer ++ a)).1 with
  | none => rfl
  | some r1 =>
    simp only []
    rw [if_neg ?_]
    have hlen : (r1.1.cur ++ (splitNl (s.buffer ++ a)).2).length ≤ 80 := by
      rw [pendingAfter_eq s a r1 hv]
      exact hnf
    omega



theorem addChunk_append (s : St) (a b : Chars) (hnf : noForce s a) :
    addChunk s (a ++ b) =
      match addChunk s a with
      | none => none
      | some r1 =>
        match addChunk r1.1 b with
        | none => none
        | some r2 => some (r2.1, r1.2 ++ r2.2) := by
  have hassoc : s.buffer ++ (a ++ b) = (s.buffer ++ a) ++ b :=
    (List.append_assoc _ _ _).symm
  rw [addChunk_noforce s a hnf]
  cases hv : procComplete { s with buffer := [] } (splitNl (s.buffer ++ a)).1 with
  | none =>
    simp only []
    rw [addChunk, hassoc]
    cases hpb : (splitNl b).1 with
    | nil =>
      rw [splitNl_append_nolines (s.buffer ++ a) b hpb]
      simp only []
      rw [hv]
    | cons l0 ls =>
      rw [splitNl_append_lines (s.buffer ++ a) b l0 ls hpb]
      simp only []
      rw [procComplete_append, hv]
  | some r1 =>
    simp only []
    have hbuf : r1.1.buffer = [] := (procComplete_state _ _ _ hv).1
    rw [addChunk, addChunk, hassoc]
    simp only [hbuf, List.nil_append]
    cases hpb : (splitNl b).1 with
    | nil =>
      rw [splitNl_append_nolines (s.buffer ++ a) b hpb]
      simp only []
      rw [hv]
      simp only []
      simp only [procComplete, hbuf, List.append_assoc]
      split
      · split
        next hL =>
          rw [hL]
        next r2 hL =>
          rw [hL]
          simp
      · simp
    | cons l0 ls =>
      rw [splitNl_append_lines (s.buffer ++ a) b l0 ls hpb]
      simp only []
      rw [procComplete_append, hv]
      simp only [procComplete]
      rw [processLine_congr
        { buffer := [], cur := r1.1.cur ++ (splitNl (s.buffer ++ a)).2,
          stack := r1.1.stack, inList := r1.1.inList } r1.1
        ((r1.1.cur ++ (splitNl (s.buffer ++ a)).2) ++ l0) rfl rfl]
      simp only [List.append_assoc]
      cases hL : processLine r1.1 (r1.1.cur ++ ((splitNl (s.buffer ++ a)).2 ++ l0)) with
      | none => rfl
      | some rL =>
        have hbufL : rL.1.buffer = [] := by
          rw [(processLine_cur_buffer _ _ _ hL).2]
          exact hbuf
        simp only [Option.map_some', hbufL]
        cases hT : procComplete ⟨[], [], rL.1.stack, rL.1.inList⟩ ls with
        | none => rfl
        | some rT =>
          simp only []
          split
          · split
            next hL2 => rfl
            next r2 hL2 => simp
          · simp



theorem feedChunks_join (cs : List Chars) (s : St) (hne : cs ≠ [])
    (hg : goodCuts s cs) : feedChunks s cs = feedChunks s [List.flatten cs] := by
  induction cs generalizing s with
  | nil => exact absurd rfl hne
  | cons c cs ih =>
    cases cs with
    | nil => simp [List.flatten]
    | cons c2 cs2 =>
      obtain ⟨hnf, hrest⟩ := hg
      rw [show List.flatten (c :: c2 :: cs2) = c ++ List.flatten (c2 :: cs2) from rfl]
      rw [show feedChunks s [c ++ List.flatten (c2 :: cs2)] =
        match addChunk s (c ++ List.flatten (c2 :: cs2)) with
        | none => none
        | some r1 => some (r1.1, r1.2 ++ []) from rfl]
      rw [addChunk_append s c (List.flatten (c2 :: cs2)) hnf]
      rw [feedChunks]
      cases hA : addChunk s c with
      | none => rfl
      | some r1 =>
        simp only []
        have hg2 : goodCuts r1.1 (c2 :: cs2) := hrest r1 hA
        rw [ih r1.1 (by simp) hg2]
        rw [show feedChunks r1.1 [List.flatten (c2 :: cs2)] =
          match addChunk r1.1 (List.flatten (c2 :: cs2)) with
          | none => none
          | some r2 => some (r2.1, r2.2 ++ []) from rfl]
        cases hB : addChunk r1.1 (List.flatten (c2 :: cs2)) with
        | none => rfl
        | some r2 => simp

/-- C6 (amended): chunk-boundary invariance holds whenever no internal chunk
boundary leaves a pending unterminated line longer than 80 characters —
i.e. whenever the force dispatch never splits a line at a boundary.  When a
boundary does split a line this way the outputs can differ even with no
emphasis marker involved (see the counterexample), so the claimed exception
clause is too narrow. -/
theorem c6_amended_invariance (cs : List Chars) (hg : goodCuts init cs) :
    runChunks cs = runChunks [List.flatten cs] := by
  cases cs with
  | nil => rfl
  | cons c cs2 =>
    rw [runChunks, runChunks, feedChunks_join (c :: cs2) init (by simp) hg]

/-- C6 (witness): a concrete cleanly-cut partition whose output matches the
single-chunk feed. -/
theorem c6_witness :
    goodCuts init [chars "- a\n", chars "- b\n"] ∧
    runChunks [chars "- a\n", chars "- b\n"] =
      runChunks [List.flatten [chars "- a\n", chars "- b\n"]] :=
  ⟨⟨by show (pendingAfter init (chars "- a\n")).length ≤ 80; decide, fun _ _ => trivial⟩,
   c6_amended_invariance _
     ⟨by show (pendingAfter init (chars "- a\n")).length ≤ 80; decide, fun _ _ => trivial⟩⟩


end MarkdownBuffer

